import Mathlib

/-!
Verification of the voice-synchronization core of `bach.py` (a Markov-chain
generator for Bach chorales).  The synchronizer `gen_states`, the joint-state
codec (`str` on the state tuple / `ast.literal_eval` on the token), the
expander loop of `make_music`, the training-list construction of `make_model`
and the voice-stream extraction `notes_and_durations` are embedded shallowly.

Numeric durations are embedded as exact rationals tagged with their Python
runtime type, because the program behaves differently on the two types that
music21 produces for `quarterLength`: a `float` for exactly representable
(dyadic) values, a `fractions.Fraction` otherwise (e.g. triplets).
`decimal.Decimal(x)` is exact for a float `x` (binary-to-decimal conversion is
exact, and the default 28-significant-digit context never rounds at these
musical magnitudes), and raises `TypeError` when `x` is a `Fraction`.
-/

/-- A Python number as it appears as a music21 `quarterLength`: a `float`
carrying an exact dyadic rational value, or a `fractions.Fraction` carrying an
arbitrary exact rational value. -/
inductive PyNum
  | pfloat (q : ℚ)
  | pfrac (q : ℚ)
  deriving DecidableEq

/-- The exact rational value of the number. -/
def PyNum.toRat : PyNum → ℚ
  | .pfloat q => q
  | .pfrac q => q

/-- Whether the Python value is a `float` (as opposed to a `Fraction`). -/
def PyNum.isFloat : PyNum → Bool
  | .pfloat _ => true
  | .pfrac _ => false

/-- One element of a voice stream: what `notes_and_durations` yields, with the
duration projected to its `quarterLength` value as `gen_states` stores it in
`state[voice]` — a symbol (pitch name with octave, or `"rest"`) together with
the duration value. -/
structure Event where
  sym : String
  dur : PyNum
  deriving DecidableEq

/-- The four fixed voice identifiers of `class Voice`. -/
inductive Voice
  | soprano | alto | tenor | bass
  deriving DecidableEq

/-- The voices in the fixed insertion order Soprano, Alto, Tenor, Bass used by
the Python dicts `counter`, `streams`, `state` and `parts`. -/
def Voice.all : List Voice := [.soprano, .alto, .tenor, .bass]

/-- A per-voice mapping (the Python dicts keyed by the four voices). -/
structure VQuad (α : Type) where
  s : α
  a : α
  t : α
  b : α
  deriving DecidableEq

def VQuad.get (x : VQuad α) : Voice → α
  | .soprano => x.s
  | .alto => x.a
  | .tenor => x.t
  | .bass => x.b

def VQuad.set (x : VQuad α) : Voice → α → VQuad α
  | .soprano, y => { x with s := y }
  | .alto, y => { x with a := y }
  | .tenor, y => { x with t := y }
  | .bass, y => { x with b := y }

/-- `min_value = min(counter.values())`. -/
def minCounter (cnt : VQuad ℚ) : ℚ := min (min cnt.s cnt.a) (min cnt.t cnt.b)

/-- `min_voices = [k for k in counter if counter[k] == min_value]`: the behind
voices, in dict insertion order Soprano, Alto, Tenor, Bass.  `Decimal`
equality is exact numeric equality. -/
def minVoices (cnt : VQuad ℚ) : List Voice :=
  Voice.all.filter (fun v => decide (cnt.get v = minCounter cnt))

/-- The Python exceptions relevant to the core. -/
inductive PyErr
  /-- `StopIteration` from `next()` on an exhausted voice stream. -/
  | exhausted
  /-- `TypeError` from `Decimal(Fraction(...))`. -/
  | typeError
  /-- `ValueError` from `ast.literal_eval` or tuple unpacking. -/
  | malformed
  deriving DecidableEq

deriving instance DecidableEq for Except

/-- The mutable state of one `gen_states` run: the four streams, the per-voice
cumulative `Decimal` counters, and `state` (the most recently pulled event per
voice). -/
structure Conf where
  streams : VQuad (List Event)
  counter : VQuad ℚ
  cur : VQuad Event
  deriving DecidableEq

/-- One turn of the inner `for voice in min_voices` loop of `gen_states`:
`elem, dur = next(streams[voice])`, `state[voice] = (elem, dur.quarterLength)`,
`counter[voice] += Decimal(dur.quarterLength)`.  `next` raises StopIteration on
an exhausted stream, and `Decimal` raises TypeError on a `Fraction` duration;
on a float duration the counter update is exact rational addition. -/
def pullVoice (c : Conf) (v : Voice) : Except PyErr Conf :=
  match c.streams.get v with
  | [] => .error .exhausted
  | e :: rest =>
    match e.dur with
    | .pfrac _ => .error .typeError
    | .pfloat q =>
        .ok ⟨c.streams.set v rest, c.counter.set v (c.counter.get v + q), c.cur.set v e⟩

/-- The full `for voice in min_voices` loop. -/
def advance : Conf → List Voice → Except PyErr Conf
  | c, [] => .ok c
  | c, v :: vs =>
    match pullVoice c v with
    | .error e => .error e
    | .ok c' => advance c' vs

/-- Total number of events remaining across the four streams. -/
def totalLen (s : VQuad (List Event)) : ℕ :=
  s.s.length + s.a.length + s.t.length + s.b.length

/-- The `while True` loop of `gen_states`, run to completion.  Each pass pulls
at least one event (the behind set is never empty), so the total number of
remaining events bounds the number of passes and serves as structural fuel;
`syncRun` always supplies enough.  A fuel-0 call is only reached with all four
streams empty, where the pass's first `next` raises StopIteration at once,
which is exactly what the base case returns (see `syncRun_unfold`).  The
result records the configuration after each `yield` (the yielded 4-tuple is
its `cur` component), the exception that ended the generator, and the
configuration at the start of the failing pass. -/
def syncGo : ℕ → Conf → List Conf × PyErr × Conf
  | 0, c => ([], .exhausted, c)
  | n + 1, c =>
    match advance c (minVoices c.counter) with
    | .error e => ([], e, c)
    | .ok c' =>
      let r := syncGo n c'
      (c' :: r.1, r.2)

/-- A complete run of the `gen_states` loop from a configuration. -/
def syncRun (c : Conf) : List Conf × PyErr × Conf :=
  syncGo (totalLen c.streams) c

/-- The initial configuration of `gen_states(S, A, T, B)`: zero counters and
the four streams.  `state` starts as all-`None` in the source; since all four
counters start equal, the first pass advances every voice, so the placeholder
events below are overwritten before any yield can contain them. -/
def initConf (S A T B : List Event) : Conf :=
  ⟨⟨S, A, T, B⟩, ⟨0, 0, 0, 0⟩,
   ⟨⟨"", .pfloat 0⟩, ⟨"", .pfloat 0⟩, ⟨"", .pfloat 0⟩, ⟨"", .pfloat 0⟩⟩⟩

/-- `gen_states(S, A, T, B)`: the sequence of yielded joint states together
with the exception that ended the generator (under pre-PEP 479 semantics a
StopIteration simply ends the generator; under PEP 479 it surfaces as a
RuntimeError — either way the yielded sequence is the first component). -/
def gen_states (S A T B : List Event) : List (VQuad Event) × PyErr :=
  let r := syncRun (initConf S A T B)
  (r.1.map Conf.cur, r.2.1)

/-!
The joint-state codec.  Encoding is `str(state)` on the yielded 4-tuple of
`(symbol, quarterLength)` pairs (bach.py line 131); decoding is
`ast.literal_eval` followed by the unpacking `S, A, T, B = ...` (lines 5 and
175).  `str` produces the canonical literal text of the tuple: `repr` of a
string round-trips, `repr` of a float round-trips to the same float, and
`repr(Fraction(a, b))` is the call text `Fraction(a, b)`, which is not a
literal, so `ast.literal_eval` raises ValueError on it.  We embed tokens at
the level of this literal structure: every token the program ever encodes is a
top-level tuple whose items are atoms or 2-tuples of atoms, so the embedding
fixes that shape.
-/

/-- An atomic Python literal (or the `Fraction(a, b)` call text that `repr`
produces for a `Fraction`, which is not a literal). -/
inductive PyAtom
  | astr (s : String)
  | afloat (q : ℚ)
  | aint (n : ℤ)
  | afrac (num den : ℤ)
  deriving DecidableEq

/-- An item of a top-level tuple token: an atom or a 2-tuple of atoms. -/
inductive PyItem
  | atom (x : PyAtom)
  | pair (x y : PyAtom)
  deriving DecidableEq

/-- A joint-state token: the literal structure of the `str(state)` text. -/
inductive PyLit
  | tuple (items : List PyItem)
  deriving DecidableEq

/-- An evaluated atomic Python value. -/
inductive PyValAtom
  | vstr (s : String)
  | vfloat (q : ℚ)
  | vint (n : ℤ)
  deriving DecidableEq

/-- An evaluated tuple item. -/
inductive PyVal
  | vatom (x : PyValAtom)
  | vpair (x y : PyValAtom)
  deriving DecidableEq

/-- `ast.literal_eval` on an atom: a `Fraction(a, b)` call node raises
ValueError, everything else evaluates to itself. -/
def evalAtom : PyAtom → Except PyErr PyValAtom
  | .astr s => .ok (.vstr s)
  | .afloat q => .ok (.vfloat q)
  | .aint n => .ok (.vint n)
  | .afrac _ _ => .error .malformed

/-- `ast.literal_eval` on a tuple item. -/
def evalItem : PyItem → Except PyErr PyVal
  | .atom x =>
    match evalAtom x with
    | .error e => .error e
    | .ok v => .ok (.vatom v)
  | .pair x y =>
    match evalAtom x with
    | .error e => .error e
    | .ok v =>
      match evalAtom y with
      | .error e => .error e
      | .ok w => .ok (.vpair v w)

/-- `ast.literal_eval` on a tuple's item list, left to right. -/
def evalItems : List PyItem → Except PyErr (List PyVal)
  | [] => .ok []
  | x :: xs =>
    match evalItem x with
    | .error e => .error e
    | .ok v =>
      match evalItems xs with
      | .error e => .error e
      | .ok vs => .ok (v :: vs)

/-- `make_tuple = ast.literal_eval` on a token. -/
def literalEval : PyLit → Except PyErr (List PyVal)
  | .tuple items => evalItems items

/-- The decode step of `make_music` (lines 174-179): `make_tuple(state)`
followed by `S, A, T, B = ...`, which raises ValueError unless the evaluated
value has exactly four components. -/
def decodeState (t : PyLit) : Except PyErr (PyVal × PyVal × PyVal × PyVal) :=
  match literalEval t with
  | .error e => .error e
  | .ok [x1, x2, x3, x4] => .ok (x1, x2, x3, x4)
  | .ok _ => .error .malformed

/-- The per-voice extraction `pitch, d = current_state[voice]` (line 183) as
the expander uses a decoded entry: it succeeds on a pair of a symbol and a
number (an `int` duration behaves downstream like its numeric value), and any
other shape fails when used. -/
def valToEvent : PyVal → Except PyErr Event
  | .vpair (.vstr s) (.vfloat q) => .ok ⟨s, .pfloat q⟩
  | .vpair (.vstr s) (.vint n) => .ok ⟨s, .pfloat (n : ℚ)⟩
  | _ => .error .malformed

/-- Decoding a token all the way back to a joint state: the decode step of
`make_music` composed with the per-voice extraction of each entry. -/
def decodeJoint (t : PyLit) : Except PyErr (VQuad Event) :=
  match decodeState t with
  | .error e => .error e
  | .ok (x1, x2, x3, x4) =>
    match valToEvent x1, valToEvent x2, valToEvent x3, valToEvent x4 with
    | .ok e1, .ok e2, .ok e3, .ok e4 => .ok ⟨e1, e2, e3, e4⟩
    | .error e, _, _, _ => .error e
    | _, .error e, _, _ => .error e
    | _, _, .error e, _ => .error e
    | _, _, _, .error e => .error e

/-- `repr` of a duration value inside the state tuple: a float literal for a
float, the non-literal call text `Fraction(num, den)` for a `Fraction`. -/
def encNum : PyNum → PyAtom
  | .pfloat q => .afloat q
  | .pfrac q => .afrac q.num q.den

/-- `repr` of one `(symbol, quarterLength)` entry. -/
def encEvent (e : Event) : PyItem := .pair (.astr e.sym) (encNum e.dur)

/-- `str(state)` on a yielded joint state (bach.py line 131): the canonical
literal text of the 4-tuple of entries. -/
def encState (j : VQuad Event) : PyLit :=
  .tuple [encEvent j.s, encEvent j.a, encEvent j.t, encEvent j.b]

/-!
The expander: the per-token body of the `for state in chain.walk()` loop of
`make_music` (lines 180-189), operating on already-decoded joint states.  It
recomputes the behind set by the same minimum-counter rule and, for exactly
those voices, appends the entry's note (a `note.Rest` for symbol `"rest"`, a
`note.Note` otherwise — either way carrying the same symbol and duration) to
that voice's part and advances the voice's counter by `Decimal(d)`; as in the
synchronizer, `Decimal` raises TypeError on a `Fraction` and is exact on a
float.
-/

/-- The expander's mutable state: per-voice counters and the four parts
(timelines of appended events). -/
structure ExpSt where
  counter : VQuad ℚ
  parts : VQuad (List Event)
  deriving DecidableEq

/-- One turn of the expander's `for voice in min_voices` loop, for voice `v`
of the incoming state `j`. -/
def appendVoice (st : ExpSt) (j : VQuad Event) (v : Voice) : Except PyErr ExpSt :=
  match (j.get v).dur with
  | .pfrac _ => .error .typeError
  | .pfloat q =>
      .ok ⟨st.counter.set v (st.counter.get v + q),
           st.parts.set v (st.parts.get v ++ [j.get v])⟩

/-- The expander's full `for voice in min_voices` loop. -/
def expandGo (j : VQuad Event) : ExpSt → List Voice → Except PyErr ExpSt
  | st, [] => .ok st
  | st, v :: vs =>
    match appendVoice st j v with
    | .error e => .error e
    | .ok st' => expandGo j st' vs

/-- Processing one incoming joint state: `min_value` and `min_voices` are
computed once from the counters at state arrival, then the behind voices are
appended in the fixed dict order. -/
def expandStep (st : ExpSt) (j : VQuad Event) : Except PyErr ExpSt :=
  expandGo j st (minVoices st.counter)

/-- Folding the expander over a sequence of joint states. -/
def expandStatesFrom : ExpSt → List (VQuad Event) → Except PyErr ExpSt
  | st, [] => .ok st
  | st, j :: js =>
    match expandStep st j with
    | .error e => .error e
    | .ok st' => expandStatesFrom st' js

/-- The expander's initial state: zero counters, empty parts. -/
def expInit : ExpSt := ⟨⟨0, 0, 0, 0⟩, ⟨[], [], [], []⟩⟩

/-- The four reconstructed voice timelines produced by replaying a sequence of
joint states through the expander loop. -/
def expandStates (js : List (VQuad Event)) : Except PyErr (VQuad (List Event)) :=
  match expandStatesFrom expInit js with
  | .error e => .error e
  | .ok st => .ok st.parts

/-!
`make_model` (lines 118-136), after the external corpus filters: for each
piece it builds `states = [str(state) for state in gen_states(...)]` and
appends it to `training`; then `Chain(training, state_size)` is built — which
raises no error on an empty corpus — and its JSON is written unconditionally.
Under pre-PEP 479 generator semantics the StopIteration that ends `gen_states`
simply ends the list comprehension, so every piece contributes exactly the
prefix of states yielded before a stream ran dry; there is no try/except in
`make_model`, hence no skip-or-abort decision point.  (Under PEP 479 the same
StopIteration would surface as a RuntimeError and abort the whole run on its
first piece — under neither semantics is the piece dropped and the run
continued.)  We model the persisted artifact by its list of training
examples.
-/

/-- A piece after the corpus filters: its four voice streams. -/
structure Piece where
  sop : List Event
  alt : List Event
  ten : List Event
  bas : List Event
  deriving DecidableEq

/-- The `training` list built by `make_model`: one token list per piece. -/
def trainingStates (pieces : List Piece) : List (List PyLit) :=
  pieces.map (fun p => ((gen_states p.sop p.alt p.ten p.bas).1).map encState)

/-- The persisted model, modeled by the training examples the Chain is built
from. -/
structure PersistedModel where
  examples : List (List PyLit)
  deriving DecidableEq

/-- `make_model` after the corpus filters: builds the training list and
persists the chain built from it, with no emptiness check and no per-piece
error handling. -/
def make_model (pieces : List Piece) : PersistedModel :=
  ⟨trainingStates pieces⟩

/-!
`notes_and_durations` (lines 71-81).  The loop body evaluates
`elem.nameWithOctave if elem.isNote else elem.name` inside `try`; a Note gives
its octave-qualified name and a Rest gives `"rest"`, and the `else` clause of
the `try` then yields `(name, elem.duration)`.  A Chord has neither attribute,
so the `try` body raises AttributeError; the `except` branch computes the
first chord note's name — but the `else` clause does not run after an
`except`, so nothing is yielded for a chord element. -/

/-- An element of `part.recurse(skipSelf=True).notesAndRests`: a Note, a Rest,
or a Chord (whose first-note name is what the `except` branch computes and
then discards). -/
inductive MElem
  | note (nameWithOctave : String) (d : PyNum)
  | rest (d : PyNum)
  | chord (firstNoteName : String) (d : PyNum)
  deriving DecidableEq

/-- The notated duration of an element. -/
def MElem.dur : MElem → PyNum
  | .note _ d => d
  | .rest d => d
  | .chord _ d => d

/-- Whether the element is a Chord. -/
def MElem.isChord : MElem → Bool
  | .chord _ _ => true
  | _ => false

/-- `notes_and_durations(chorale, voice)` on the element list of the voice's
part, with durations projected to their `quarterLength` values. -/
def notes_and_durations : List MElem → List Event
  | [] => []
  | .note nm d :: rest => ⟨nm, d⟩ :: notes_and_durations rest
  | .rest d :: rest => ⟨"rest", d⟩ :: notes_and_durations rest
  | .chord _ _ :: rest => notes_and_durations rest

/-!  Predicates and totals used by the claims. -/

/-- Total duration of a stream of events, as an exact rational. -/
def streamTotal (l : List Event) : ℚ := (l.map (fun e => e.dur.toRat)).sum

/-- Total notated duration of a part's element list. -/
def elemsTotal (l : List MElem) : ℚ := (l.map (fun e => e.dur.toRat)).sum

/-- All durations in the stream are Python floats. -/
abbrev FloatList (l : List Event) : Prop := ∀ e ∈ l, e.dur.isFloat = true

/-- All durations in the stream are positive. -/
abbrev PosList (l : List Event) : Prop := ∀ e ∈ l, 0 < e.dur.toRat

/-- A token is malformed when it is not the encoding of any joint state. -/
def IsMalformedToken (t : PyLit) : Prop := ∀ j : VQuad Event, encState j ≠ t

/-- Whether the atom is the non-literal `Fraction(a, b)` call text. -/
def PyAtom.isFrac : PyAtom → Bool
  | .afrac _ _ => true
  | _ => false

/-- Whether a tuple item contains a `Fraction(a, b)` call text. -/
def PyItem.hasFrac : PyItem → Bool
  | .atom x => x.isFrac
  | .pair x y => x.isFrac || y.isFrac

/-- Whether a token contains a `Fraction(a, b)` call text anywhere. -/
def PyLit.hasFrac : PyLit → Bool
  | .tuple items => items.any PyItem.hasFrac

/-- All four remaining streams hold only float durations. -/
def ConfFloat (c : Conf) : Prop := ∀ v, FloatList (c.streams.get v)

/-- All four remaining streams hold only positive durations. -/
def ConfPos (c : Conf) : Prop := ∀ v, PosList (c.streams.get v)

/-- All entries of `state` hold float durations. -/
def CurFloat (c : Conf) : Prop := ∀ v, (c.cur.get v).dur.isFloat = true


/-!  Basic facts about the per-voice quadruples and the behind-voice rule. -/

theorem VQuad.get_set_self {α : Type} (x : VQuad α) (v : Voice) (y : α) :
    (x.set v y).get v = y := by
  cases v <;> rfl

theorem VQuad.get_set_ne {α : Type} {x : VQuad α} {v w : Voice} {y : α} (h : v ≠ w) :
    (x.set v y).get w = x.get w := by
  cases v <;> cases w <;> first | rfl | exact absurd rfl h

theorem VQuad.ext_get {α : Type} {x y : VQuad α} (h : ∀ v, x.get v = y.get v) : x = y := by
  cases x
  cases y
  have hs := h .soprano
  have ha := h .alto
  have ht := h .tenor
  have hb := h .bass
  simp only [VQuad.get] at hs ha ht hb
  simp [hs, ha, ht, hb]

theorem mem_voice_all (v : Voice) : v ∈ Voice.all := by
  cases v <;> simp [Voice.all]

theorem voice_all_nodup : Voice.all.Nodup := by decide

theorem minCounter_le (cnt : VQuad ℚ) (v : Voice) : minCounter cnt ≤ cnt.get v := by
  have hsa : minCounter cnt ≤ min cnt.s cnt.a := min_le_left _ _
  have htb : minCounter cnt ≤ min cnt.t cnt.b := min_le_right _ _
  cases v
  · exact hsa.trans (min_le_left _ _)
  · exact hsa.trans (min_le_right _ _)
  · exact htb.trans (min_le_left _ _)
  · exact htb.trans (min_le_right _ _)

theorem minCounter_attained (cnt : VQuad ℚ) : ∃ v : Voice, cnt.get v = minCounter cnt := by
  unfold minCounter
  rcases min_cases (min cnt.s cnt.a) (min cnt.t cnt.b) with ⟨h, _⟩ | ⟨h, _⟩
  · rcases min_cases cnt.s cnt.a with ⟨h2, _⟩ | ⟨h2, _⟩
    · exact ⟨.soprano, by rw [h, h2]; rfl⟩
    · exact ⟨.alto, by rw [h, h2]; rfl⟩
  · rcases min_cases cnt.t cnt.b with ⟨h2, _⟩ | ⟨h2, _⟩
    · exact ⟨.tenor, by rw [h, h2]; rfl⟩
    · exact ⟨.bass, by rw [h, h2]; rfl⟩

theorem mem_minVoices {cnt : VQuad ℚ} {v : Voice} :
    v ∈ minVoices cnt ↔ cnt.get v = minCounter cnt := by
  simp [minVoices, List.mem_filter, mem_voice_all]

theorem minVoices_ne_nil (cnt : VQuad ℚ) : minVoices cnt ≠ [] := by
  obtain ⟨v, hv⟩ := minCounter_attained cnt
  intro h
  have hm : v ∈ minVoices cnt := mem_minVoices.mpr hv
  rw [h] at hm
  simp at hm

theorem minVoices_nodup (cnt : VQuad ℚ) : (minVoices cnt).Nodup :=
  voice_all_nodup.filter _

/-!  Characterization of one pull and of a full behind-set pass. -/

theorem pullVoice_ok {c : Conf} {v : Voice} {c' : Conf} (h : pullVoice c v = .ok c') :
    ∃ e rest q, c.streams.get v = e :: rest ∧ e.dur = .pfloat q ∧
      c' = ⟨c.streams.set v rest, c.counter.set v (c.counter.get v + q), c.cur.set v e⟩ := by
  unfold pullVoice at h
  split at h
  · simp at h
  next e rest heq =>
    split at h
    · simp at h
    next q hdq =>
      simp only [Except.ok.injEq] at h
      exact ⟨e, rest, q, heq, hdq, h.symm⟩

theorem streamTotal_nil : streamTotal [] = 0 := rfl

theorem streamTotal_cons (e : Event) (l : List Event) :
    streamTotal (e :: l) = e.dur.toRat + streamTotal l := by
  simp [streamTotal]

theorem streamTotal_append_single (l : List Event) (e : Event) :
    streamTotal (l ++ [e]) = streamTotal l + e.dur.toRat := by
  simp [streamTotal]

theorem streamTotal_nonneg {l : List Event} (h : PosList l) : 0 ≤ streamTotal l := by
  induction l with
  | nil => simp [streamTotal]
  | cons e rest ih =>
    rw [streamTotal_cons]
    have he := h e (List.mem_cons_self _ _)
    have hr : PosList rest := fun x hx => h x (List.mem_cons_of_mem _ hx)
    have := ih hr
    linarith

theorem posList_eq_nil_of_total {l : List Event} (h : PosList l) (h0 : streamTotal l = 0) :
    l = [] := by
  cases l with
  | nil => rfl
  | cons e rest =>
    exfalso
    rw [streamTotal_cons] at h0
    have he := h e (List.mem_cons_self _ _)
    have hr : PosList rest := fun x hx => h x (List.mem_cons_of_mem _ hx)
    have := streamTotal_nonneg hr
    linarith

theorem floatList_tail {e : Event} {l : List Event} (h : FloatList (e :: l)) : FloatList l :=
  fun x hx => h x (List.mem_cons_of_mem _ hx)

theorem posList_tail {e : Event} {l : List Event} (h : PosList (e :: l)) : PosList l :=
  fun x hx => h x (List.mem_cons_of_mem _ hx)

theorem confFloat_pull {c : Conf} {v : Voice} {c' : Conf}
    (hf : ConfFloat c) (h : pullVoice c v = .ok c') : ConfFloat c' := by
  obtain ⟨e, rest, q, hs, _, rfl⟩ := pullVoice_ok h
  intro w
  by_cases hw : v = w
  · subst hw
    rw [VQuad.get_set_self]
    have := hf v
    rw [hs] at this
    exact floatList_tail this
  · rw [VQuad.get_set_ne hw]
    exact hf w

theorem confPos_pull {c : Conf} {v : Voice} {c' : Conf}
    (hp : ConfPos c) (h : pullVoice c v = .ok c') : ConfPos c' := by
  obtain ⟨e, rest, q, hs, _, rfl⟩ := pullVoice_ok h
  intro w
  by_cases hw : v = w
  · subst hw
    rw [VQuad.get_set_self]
    have := hp v
    rw [hs] at this
    exact posList_tail this
  · rw [VQuad.get_set_ne hw]
    exact hp w

theorem curFloat_pull {c : Conf} {v : Voice} {c' : Conf}
    (hc : CurFloat c) (h : pullVoice c v = .ok c') : CurFloat c' := by
  obtain ⟨e, rest, q, hs, hd, rfl⟩ := pullVoice_ok h
  intro w
  by_cases hw : v = w
  · subst hw
    rw [VQuad.get_set_self, hd]
    rfl
  · rw [VQuad.get_set_ne hw]
    exact hc w

theorem confFloat_advance {vs : List Voice} :
    ∀ {c c' : Conf}, ConfFloat c → advance c vs = .ok c' → ConfFloat c' := by
  induction vs with
  | nil =>
    intro c c' hf h
    simp only [advance, Except.ok.injEq] at h
    exact h ▸ hf
  | cons w ws ih =>
    intro c c' hf h
    simp only [advance] at h
    cases hp : pullVoice c w with
    | error e => rw [hp] at h; simp at h
    | ok c1 =>
      rw [hp] at h
      exact ih (confFloat_pull hf hp) h

theorem confPos_advance {vs : List Voice} :
    ∀ {c c' : Conf}, ConfPos c → advance c vs = .ok c' → ConfPos c' := by
  induction vs with
  | nil =>
    intro c c' hp h
    simp only [advance, Except.ok.injEq] at h
    exact h ▸ hp
  | cons w ws ih =>
    intro c c' hp h
    simp only [advance] at h
    cases hq : pullVoice c w with
    | error e => rw [hq] at h; simp at h
    | ok c1 =>
      rw [hq] at h
      exact ih (confPos_pull hp hq) h

theorem curFloat_advance {vs : List Voice} :
    ∀ {c c' : Conf}, CurFloat c → advance c vs = .ok c' → CurFloat c' := by
  induction vs with
  | nil =>
    intro c c' hc h
    simp only [advance, Except.ok.injEq] at h
    exact h ▸ hc
  | cons w ws ih =>
    intro c c' hc h
    simp only [advance] at h
    cases hp : pullVoice c w with
    | error e => rw [hp] at h; simp at h
    | ok c1 =>
      rw [hp] at h
      exact ih (curFloat_pull hc hp) h

theorem advance_unchanged {vs : List Voice} :
    ∀ {c c' : Conf}, advance c vs = .ok c' → ∀ v, v ∉ vs →
      c'.streams.get v = c.streams.get v ∧ c'.counter.get v = c.counter.get v ∧
        c'.cur.get v = c.cur.get v := by
  induction vs with
  | nil =>
    intro c c' h v _
    simp only [advance, Except.ok.injEq] at h
    rw [h]
    exact ⟨rfl, rfl, rfl⟩
  | cons w ws ih =>
    intro c c' h v hv
    simp only [advance] at h
    cases hp : pullVoice c w with
    | error e => rw [hp] at h; simp at h
    | ok c1 =>
      rw [hp] at h
      obtain ⟨e, rest, q, hs, hd, rfl⟩ := pullVoice_ok hp
      have hvw : w ≠ v := fun hh => hv (hh ▸ List.mem_cons_self _ _)
      have hrest := ih h v (fun hm => hv (List.mem_cons_of_mem _ hm))
      refine ⟨?_, ?_, ?_⟩
      · rw [hrest.1]; exact VQuad.get_set_ne hvw
      · rw [hrest.2.1]; exact VQuad.get_set_ne hvw
      · rw [hrest.2.2]; exact VQuad.get_set_ne hvw

theorem advance_mem {vs : List Voice} (hnd : vs.Nodup) :
    ∀ {c c' : Conf}, advance c vs = .ok c' → ∀ v ∈ vs,
      ∃ q rest, c.streams.get v = (c'.cur.get v) :: rest ∧
        (c'.cur.get v).dur = .pfloat q ∧ c'.streams.get v = rest ∧
        c'.counter.get v = c.counter.get v + q := by
  induction vs with
  | nil => intro c c' _ v hv; simp at hv
  | cons w ws ih =>
    intro c c' h v hv
    simp only [advance] at h
    cases hp : pullVoice c w with
    | error e => rw [hp] at h; simp at h
    | ok c1 =>
      rw [hp] at h
      obtain ⟨e, rest, q, hs, hd, hc1⟩ := pullVoice_ok hp
      have hwnotin : w ∉ ws := (List.nodup_cons.mp hnd).1
      have hndws : ws.Nodup := (List.nodup_cons.mp hnd).2
      rcases List.mem_cons.mp hv with rfl | hvws
      · -- v = w: the pulled event, untouched by the rest of the pass
        have hun := advance_unchanged h v hwnotin
        have hcur : c'.cur.get v = e := by
          rw [hun.2.2, hc1]
          exact VQuad.get_set_self _ _ _
        refine ⟨q, rest, ?_, ?_, ?_, ?_⟩
        · rw [hcur]; exact hs
        · rw [hcur]; exact hd
        · rw [hun.1, hc1]; exact VQuad.get_set_self _ _ _
        · rw [hun.2.1, hc1]; exact VQuad.get_set_self _ _ _
      · -- v in the tail: its stream and counter were untouched by the w-pull
        have hvw : w ≠ v := fun hh => hwnotin (hh ▸ hvws)
        obtain ⟨q', rest', h1, h2, h3, h4⟩ := ih hndws h v hvws
        refine ⟨q', rest', ?_, h2, h3, ?_⟩
        · rw [← h1, hc1]; exact (VQuad.get_set_ne hvw).symm ▸ rfl
        · rw [h4, hc1]
          congr 1
          exact VQuad.get_set_ne hvw

theorem totalLen_set_tail {st : VQuad (List Event)} {v : Voice} {e : Event}
    {rest : List Event} (hs : st.get v = e :: rest) :
    totalLen (st.set v rest) + 1 = totalLen st := by
  cases v <;> simp only [VQuad.get] at hs <;>
    simp [totalLen, VQuad.set, hs] <;> omega

theorem advance_totalLen {vs : List Voice} :
    ∀ {c c' : Conf}, advance c vs = .ok c' →
      totalLen c'.streams + vs.length = totalLen c.streams := by
  induction vs with
  | nil =>
    intro c c' h
    simp only [advance, Except.ok.injEq] at h
    rw [h]
    simp
  | cons w ws ih =>
    intro c c' h
    simp only [advance] at h
    cases hp : pullVoice c w with
    | error e => rw [hp] at h; simp at h
    | ok c1 =>
      rw [hp] at h
      obtain ⟨e, rest, q, hs, _, rfl⟩ := pullVoice_ok hp
      have h1 := totalLen_set_tail hs
      have h2 : totalLen c'.streams + ws.length = totalLen (c.streams.set w rest) := ih h
      simp only [List.length_cons]
      omega

theorem advance_error_exhausted {vs : List Voice} (hnd : vs.Nodup) :
    ∀ {c : Conf} {e : PyErr}, ConfFloat c → advance c vs = .error e →
      e = .exhausted ∧ ∃ v ∈ vs, c.streams.get v = [] := by
  induction vs with
  | nil => intro c e _ h; simp [advance] at h
  | cons w ws ih =>
    intro c e hf h
    simp only [advance] at h
    cases hp : pullVoice c w with
    | error e' =>
      rw [hp] at h
      simp only [Except.error.injEq] at h
      subst h
      unfold pullVoice at hp
      split at hp
      next heq =>
        simp only [Except.error.injEq] at hp
        exact ⟨hp.symm, w, List.mem_cons_self _ _, heq⟩
      next e0 rest heq =>
        split at hp
        next q hdq =>
          exfalso
          have := hf w e0 (heq ▸ List.mem_cons_self _ _)
          rw [hdq] at this
          simp [PyNum.isFloat] at this
        next => simp at hp
    | ok c1 =>
      rw [hp] at h
      have hwnotin : w ∉ ws := (List.nodup_cons.mp hnd).1
      obtain ⟨he, v, hv, hnil⟩ := ih (List.nodup_cons.mp hnd).2 (confFloat_pull hf hp) h
      refine ⟨he, v, List.mem_cons_of_mem _ hv, ?_⟩
      obtain ⟨e0, rest, q, hs, _, rfl⟩ := pullVoice_ok hp
      have hwv : w ≠ v := fun hh => hwnotin (hh ▸ hv)
      rw [← hnil]
      exact (VQuad.get_set_ne hwv).symm

theorem advance_exhausted_of_empty {c : Conf} (h0 : totalLen c.streams = 0)
    {vs : List Voice} (hne : vs ≠ []) : advance c vs = .error .exhausted := by
  cases vs with
  | nil => exact absurd rfl hne
  | cons v vs =>
    have hnil : c.streams.get v = [] := by
      apply List.eq_nil_of_length_eq_zero
      unfold totalLen at h0
      cases v <;> simp only [VQuad.get] <;> omega
    simp only [advance]
    unfold pullVoice
    rw [hnil]

set_option maxHeartbeats 1000000 in
theorem syncGo_congr : ∀ n m (c : Conf), totalLen c.streams ≤ n →
    totalLen c.streams ≤ m → syncGo n c = syncGo m c := by
  intro n
  induction n with
  | zero =>
    intro m c hn _
    have h0 : totalLen c.streams = 0 := Nat.le_zero.mp hn
    cases m with
    | zero => rfl
    | succ m =>
      simp only [syncGo]
      rw [advance_exhausted_of_empty h0 (minVoices_ne_nil c.counter)]
  | succ n ih =>
    intro m c hn hm
    cases m with
    | zero =>
      have h0 : totalLen c.streams = 0 := Nat.le_zero.mp hm
      simp only [syncGo]
      rw [advance_exhausted_of_empty h0 (minVoices_ne_nil c.counter)]
    | succ m =>
      simp only [syncGo]
      cases ha : advance c (minVoices c.counter) with
      | error e => rfl
      | ok c' =>
        have hlen := advance_totalLen ha
        have hpos : 0 < (minVoices c.counter).length :=
          List.length_pos.mpr (minVoices_ne_nil _)
        dsimp only
        rw [ih m c' (by omega) (by omega)]

set_option maxHeartbeats 1000000 in
theorem syncRun_unfold (c : Conf) :
    syncRun c = match advance c (minVoices c.counter) with
      | .error e => ([], e, c)
      | .ok c' =>
        let r := syncRun c'
        (c' :: r.1, r.2) := by
  unfold syncRun
  cases hL : totalLen c.streams with
  | zero =>
    simp only [syncGo]
    rw [advance_exhausted_of_empty hL (minVoices_ne_nil c.counter)]
  | succ n =>
    simp only [syncGo]
    cases ha : advance c (minVoices c.counter) with
    | error e => rfl
    | ok c' =>
      have hlen := advance_totalLen ha
      have hpos : 0 < (minVoices c.counter).length :=
        List.length_pos.mpr (minVoices_ne_nil c.counter)
      dsimp only
      rw [syncGo_congr n (totalLen c'.streams) c' (by omega) le_rfl]

/-!  Conservation: each voice's counter plus its remaining stream total is
invariant — the counter is the exact rational sum of consumed durations. -/

theorem pull_conserve {c : Conf} {v : Voice} {c' : Conf}
    (h : pullVoice c v = .ok c') (w : Voice) :
    c'.counter.get w + streamTotal (c'.streams.get w)
      = c.counter.get w + streamTotal (c.streams.get w) := by
  obtain ⟨e, rest, q, hs, hd, rfl⟩ := pullVoice_ok h
  by_cases hw : v = w
  · subst hw
    rw [VQuad.get_set_self, VQuad.get_set_self, hs, streamTotal_cons]
    have hq : e.dur.toRat = q := by rw [hd]; rfl
    rw [hq]
    ring
  · rw [VQuad.get_set_ne hw, VQuad.get_set_ne hw]

theorem advance_conserve {vs : List Voice} :
    ∀ {c c' : Conf}, advance c vs = .ok c' → ∀ w,
      c'.counter.get w + streamTotal (c'.streams.get w)
        = c.counter.get w + streamTotal (c.streams.get w) := by
  induction vs with
  | nil =>
    intro c c' h w
    simp only [advance, Except.ok.injEq] at h
    rw [h]
  | cons u us ih =>
    intro c c' h w
    simp only [advance] at h
    cases hp : pullVoice c u with
    | error e => rw [hp] at h; simp at h
    | ok c1 =>
      rw [hp] at h
      rw [ih h w, pull_conserve hp w]

theorem syncGo_conserve (n : ℕ) : ∀ (c : Conf) (w : Voice),
    (syncGo n c).2.2.counter.get w + streamTotal ((syncGo n c).2.2.streams.get w)
      = c.counter.get w + streamTotal (c.streams.get w) := by
  induction n with
  | zero => intro c w; rfl
  | succ n ih =>
    intro c w
    simp only [syncGo]
    cases ha : advance c (minVoices c.counter) with
    | error e => rfl
    | ok c' =>
      dsimp only
      rw [ih c' w, advance_conserve ha w]

theorem syncGo_end (n : ℕ) : ∀ c : Conf, totalLen c.streams ≤ n →
    advance (syncGo n c).2.2 (minVoices (syncGo n c).2.2.counter)
      = .error (syncGo n c).2.1 := by
  induction n with
  | zero =>
    intro c h0
    exact advance_exhausted_of_empty (Nat.le_zero.mp h0) (minVoices_ne_nil _)
  | succ n ih =>
    intro c hn
    simp only [syncGo]
    cases ha : advance c (minVoices c.counter) with
    | error e => exact ha
    | ok c' =>
      dsimp only
      have hlen := advance_totalLen ha
      have hpos : 0 < (minVoices c.counter).length :=
        List.length_pos.mpr (minVoices_ne_nil _)
      exact ih c' (by omega)

theorem syncGo_final_float (n : ℕ) : ∀ c : Conf, ConfFloat c →
    ConfFloat (syncGo n c).2.2 := by
  induction n with
  | zero => intro c hf; exact hf
  | succ n ih =>
    intro c hf
    simp only [syncGo]
    cases ha : advance c (minVoices c.counter) with
    | error e => exact hf
    | ok c' => exact ih c' (confFloat_advance hf ha)

theorem syncGo_final_pos (n : ℕ) : ∀ c : Conf, ConfPos c →
    ConfPos (syncGo n c).2.2 := by
  induction n with
  | zero => intro c hp; exact hp
  | succ n ih =>
    intro c hp
    simp only [syncGo]
    cases ha : advance c (minVoices c.counter) with
    | error e => exact hp
    | ok c' => exact ih c' (confPos_advance hp ha)

theorem syncGo_trace_curFloat (n : ℕ) : ∀ c : Conf, CurFloat c →
    ∀ conf ∈ (syncGo n c).1, CurFloat conf := by
  induction n with
  | zero => intro c _ conf hconf; simp [syncGo] at hconf
  | succ n ih =>
    intro c hc conf hconf
    simp only [syncGo] at hconf
    cases ha : advance c (minVoices c.counter) with
    | error e => rw [ha] at hconf; simp at hconf
    | ok c' =>
      rw [ha] at hconf
      have hc' : CurFloat c' := curFloat_advance hc ha
      rcases List.mem_cons.mp hconf with rfl | hmem
      · exact hc'
      · exact ih c' hc' conf hmem

/-- The equal-totals, float, positive case: a full pass.  The run ends by
StopIteration, every stream is fully consumed, and every final counter equals
the common total duration. -/
theorem syncRun_full {S A T B : List Event}
    (hA : streamTotal A = streamTotal S) (hT : streamTotal T = streamTotal S)
    (hB : streamTotal B = streamTotal S)
    (hfS : FloatList S) (hfA : FloatList A) (hfT : FloatList T) (hfB : FloatList B)
    (hpS : PosList S) (hpA : PosList A) (hpT : PosList T) (hpB : PosList B) :
    (syncRun (initConf S A T B)).2.1 = .exhausted ∧
    ∀ v, (syncRun (initConf S A T B)).2.2.streams.get v = [] ∧
         (syncRun (initConf S A T B)).2.2.counter.get v = streamTotal S := by
  have hf0 : ConfFloat (initConf S A T B) := by
    intro v
    cases v
    · exact hfS
    · exact hfA
    · exact hfT
    · exact hfB
  have hp0 : ConfPos (initConf S A T B) := by
    intro v
    cases v
    · exact hpS
    · exact hpA
    · exact hpT
    · exact hpB
  have hcons : ∀ w, (syncRun (initConf S A T B)).2.2.counter.get w
      + streamTotal ((syncRun (initConf S A T B)).2.2.streams.get w) = streamTotal S := by
    intro w
    have h1 := syncGo_conserve (totalLen (initConf S A T B).streams) (initConf S A T B) w
    have h2 : (initConf S A T B).counter.get w
        + streamTotal ((initConf S A T B).streams.get w) = streamTotal S := by
      cases w
      · show (0 : ℚ) + streamTotal S = streamTotal S; ring
      · show (0 : ℚ) + streamTotal A = streamTotal S; rw [hA]; ring
      · show (0 : ℚ) + streamTotal T = streamTotal S; rw [hT]; ring
      · show (0 : ℚ) + streamTotal B = streamTotal S; rw [hB]; ring
    exact h1.trans h2
  have hff : ConfFloat (syncRun (initConf S A T B)).2.2 :=
    syncGo_final_float _ _ hf0
  have hpf : ConfPos (syncRun (initConf S A T B)).2.2 :=
    syncGo_final_pos _ _ hp0
  have hend := syncGo_end (totalLen (initConf S A T B).streams) (initConf S A T B) le_rfl
  obtain ⟨hex, v0, hv0, hnil⟩ :=
    advance_error_exhausted (minVoices_nodup _) hff hend
  have hv0c : (syncRun (initConf S A T B)).2.2.counter.get v0 = streamTotal S := by
    have hc := hcons v0
    rw [hnil, streamTotal_nil] at hc
    linarith
  have hv0m : v0 ∈ minVoices (syncRun (initConf S A T B)).2.2.counter := hv0
  have hminD : minCounter (syncRun (initConf S A T B)).2.2.counter = streamTotal S := by
    rw [← mem_minVoices.mp hv0m, hv0c]
  refine ⟨hex, fun v => ?_⟩
  have hle := minCounter_le (syncRun (initConf S A T B)).2.2.counter v
  rw [hminD] at hle
  have hc := hcons v
  have hnn : 0 ≤ streamTotal ((syncRun (initConf S A T B)).2.2.streams.get v) :=
    streamTotal_nonneg (hpf v)
  have hz : streamTotal ((syncRun (initConf S A T B)).2.2.streams.get v) = 0 := by
    linarith
  exact ⟨posList_eq_nil_of_total (hpf v) hz, by linarith⟩

/-!  The expander's behind-set pass: characterization and simulation of the
synchronizer's pass. -/

theorem appendVoice_ok {st : ExpSt} {j : VQuad Event} {v : Voice} {st' : ExpSt}
    (h : appendVoice st j v = .ok st') :
    ∃ q, (j.get v).dur = .pfloat q ∧
      st' = ⟨st.counter.set v (st.counter.get v + q),
             st.parts.set v (st.parts.get v ++ [j.get v])⟩ := by
  unfold appendVoice at h
  split at h
  · simp at h
  next q hq =>
    simp only [Except.ok.injEq] at h
    exact ⟨q, hq, h.symm⟩

theorem expandGo_char {j : VQuad Event} {vs : List Voice} (hnd : vs.Nodup) :
    ∀ {st st' : ExpSt}, expandGo j st vs = .ok st' →
      (∀ v ∈ vs, st'.parts.get v = st.parts.get v ++ [j.get v]) ∧
      (∀ v, v ∉ vs →
        st'.parts.get v = st.parts.get v ∧ st'.counter.get v = st.counter.get v) := by
  induction vs with
  | nil =>
    intro st st' h
    simp only [expandGo, Except.ok.injEq] at h
    subst h
    exact ⟨by simp, fun v _ => ⟨rfl, rfl⟩⟩
  | cons w ws ih =>
    intro st st' h
    simp only [expandGo] at h
    cases hp : appendVoice st j w with
    | error e => rw [hp] at h; simp at h
    | ok st1 =>
      rw [hp] at h
      obtain ⟨q, hq, rfl⟩ := appendVoice_ok hp
      have hwnot : w ∉ ws := (List.nodup_cons.mp hnd).1
      obtain ⟨hmem, hnmem⟩ := ih (List.nodup_cons.mp hnd).2 h
      constructor
      · intro v hv
        rcases List.mem_cons.mp hv with rfl | hvws
        · rw [(hnmem v hwnot).1, VQuad.get_set_self]
        · have hwv : w ≠ v := fun hh => hwnot (hh ▸ hvws)
          rw [hmem v hvws, VQuad.get_set_ne hwv]
      · intro v hv
        have hvw : w ≠ v := fun hh => hv (hh ▸ List.mem_cons_self _ _)
        have hvws : v ∉ ws := fun hm => hv (List.mem_cons_of_mem _ hm)
        obtain ⟨h1, h2⟩ := hnmem v hvws
        exact ⟨by rw [h1, VQuad.get_set_ne hvw], by rw [h2, VQuad.get_set_ne hvw]⟩

theorem expandGo_sim {vs : List Voice} (hnd : vs.Nodup) :
    ∀ {c c' : Conf} {st : ExpSt}, st.counter = c.counter → advance c vs = .ok c' →
      ∃ st', expandGo c'.cur st vs = .ok st' ∧ st'.counter = c'.counter ∧
        (∀ v ∈ vs, st'.parts.get v = st.parts.get v ++ [c'.cur.get v]) ∧
        (∀ v, v ∉ vs → st'.parts.get v = st.parts.get v) := by
  induction vs with
  | nil =>
    intro c c' st hc h
    simp only [advance, Except.ok.injEq] at h
    subst h
    exact ⟨st, rfl, hc, by simp, fun v _ => rfl⟩
  | cons w ws ih =>
    intro c c' st hc h
    simp only [advance] at h
    cases hp : pullVoice c w with
    | error e => rw [hp] at h; simp at h
    | ok c1 =>
      rw [hp] at h
      obtain ⟨e, rest, q, hs, hd, rfl⟩ := pullVoice_ok hp
      have hwnot : w ∉ ws := (List.nodup_cons.mp hnd).1
      have hndws : ws.Nodup := (List.nodup_cons.mp hnd).2
      have hcur : c'.cur.get w = e := by
        have hun := (advance_unchanged h w hwnot).2.2
        rw [hun]
        exact VQuad.get_set_self _ _ _
      have hdur : (c'.cur.get w).dur = .pfloat q := by rw [hcur, hd]
      have happ : appendVoice st c'.cur w
          = .ok ⟨st.counter.set w (st.counter.get w + q),
                 st.parts.set w (st.parts.get w ++ [c'.cur.get w])⟩ := by
        unfold appendVoice
        rw [hdur]
      have hcnt1 : (⟨st.counter.set w (st.counter.get w + q),
          st.parts.set w (st.parts.get w ++ [c'.cur.get w])⟩ : ExpSt).counter
            = (c.counter.set w (c.counter.get w + q)) := by
        rw [hc]
      obtain ⟨st', hgo, hcnt, hmem, hnmem⟩ := ih hndws hcnt1 h
      refine ⟨st', ?_, hcnt, ?_, ?_⟩
      · simp only [expandGo]
        rw [happ]
        exact hgo
      · intro v hv
        rcases List.mem_cons.mp hv with rfl | hvws
        · rw [hnmem v hwnot, VQuad.get_set_self]
        · have hwv : w ≠ v := fun hh => hwnot (hh ▸ hvws)
          rw [hmem v hvws, VQuad.get_set_ne hwv]
      · intro v hv
        have hvw : w ≠ v := fun hh => hv (hh ▸ List.mem_cons_self _ _)
        have hvws : v ∉ ws := fun hm => hv (List.mem_cons_of_mem _ hm)
        rw [hnmem v hvws, VQuad.get_set_ne hvw]

set_option maxHeartbeats 1000000 in
theorem syncGo_replay (n : ℕ) : ∀ (c : Conf) (st : ExpSt), st.counter = c.counter →
    totalLen c.streams ≤ n →
    ∃ fin, expandStatesFrom st ((syncGo n c).1.map Conf.cur) = .ok fin ∧
      fin.counter = (syncGo n c).2.2.counter ∧
      ∀ v, fin.parts.get v ++ (syncGo n c).2.2.streams.get v
        = st.parts.get v ++ c.streams.get v := by
  induction n with
  | zero =>
    intro c st hc _
    exact ⟨st, rfl, hc, fun v => rfl⟩
  | succ n ih =>
    intro c st hc hn
    simp only [syncGo]
    cases ha : advance c (minVoices c.counter) with
    | error e => exact ⟨st, rfl, hc, fun v => rfl⟩
    | ok c' =>
      dsimp only
      have hnd := minVoices_nodup c.counter
      obtain ⟨st1, hgo, hcnt1, hmem, hnmem⟩ := expandGo_sim hnd hc ha
      have hstep : expandStep st c'.cur = .ok st1 := by
        unfold expandStep
        rw [hc]
        exact hgo
      have hlen := advance_totalLen ha
      have hpos : 0 < (minVoices c.counter).length :=
        List.length_pos.mpr (minVoices_ne_nil _)
      obtain ⟨fin, hexp, hfc, hfp⟩ := ih c' st1 hcnt1 (by omega)
      refine ⟨fin, ?_, hfc, ?_⟩
      · simp only [List.map_cons, expandStatesFrom]
        rw [hstep]
        exact hexp
      · intro v
        by_cases hv : v ∈ minVoices c.counter
        · obtain ⟨q, rest, hsv, _, hsv', _⟩ := advance_mem hnd ha v hv
          rw [hfp v, hmem v hv, hsv', hsv]
          simp [List.append_assoc]
        · rw [hfp v, hnmem v hv, (advance_unchanged ha v hv).1]

/-!  Codec round-trip on float-duration states, and the expander's
counter/timeline invariant. -/

theorem isFloat_eq {d : PyNum} (h : d.isFloat = true) : ∃ q, d = .pfloat q := by
  cases d with
  | pfloat q => exact ⟨q, rfl⟩
  | pfrac q => simp [PyNum.isFloat] at h

theorem decode_encode_of_float {j : VQuad Event} (h : ∀ v, (j.get v).dur.isFloat = true) :
    decodeJoint (encState j) = .ok j := by
  obtain ⟨⟨s1, d1⟩, ⟨s2, d2⟩, ⟨s3, d3⟩, ⟨s4, d4⟩⟩ := j
  have h1 : d1.isFloat = true := h .soprano
  have h2 : d2.isFloat = true := h .alto
  have h3 : d3.isFloat = true := h .tenor
  have h4 : d4.isFloat = true := h .bass
  obtain ⟨q1, rfl⟩ := isFloat_eq h1
  obtain ⟨q2, rfl⟩ := isFloat_eq h2
  obtain ⟨q3, rfl⟩ := isFloat_eq h3
  obtain ⟨q4, rfl⟩ := isFloat_eq h4
  rfl

theorem expandGo_counter_total {j : VQuad Event} {vs : List Voice} :
    ∀ {st st' : ExpSt}, expandGo j st vs = .ok st' →
      (∀ v, st.counter.get v = streamTotal (st.parts.get v)) →
      ∀ v, st'.counter.get v = streamTotal (st'.parts.get v) := by
  induction vs with
  | nil =>
    intro st st' h hinv
    simp only [expandGo, Except.ok.injEq] at h
    exact h ▸ hinv
  | cons w ws ih =>
    intro st st' h hinv
    simp only [expandGo] at h
    cases hp : appendVoice st j w with
    | error e => rw [hp] at h; simp at h
    | ok st1 =>
      rw [hp] at h
      obtain ⟨q, hq, rfl⟩ := appendVoice_ok hp
      refine ih h ?_
      intro v
      by_cases hv : w = v
      · subst hv
        rw [VQuad.get_set_self, VQuad.get_set_self, streamTotal_append_single,
            hinv w]
        have : (j.get w).dur.toRat = q := by rw [hq]; rfl
        rw [this]
      · rw [VQuad.get_set_ne hv, VQuad.get_set_ne hv]
        exact hinv v

theorem expandStatesFrom_counter_total {js : List (VQuad Event)} :
    ∀ {st st' : ExpSt}, expandStatesFrom st js = .ok st' →
      (∀ v, st.counter.get v = streamTotal (st.parts.get v)) →
      ∀ v, st'.counter.get v = streamTotal (st'.parts.get v) := by
  induction js with
  | nil =>
    intro st st' h hinv
    simp only [expandStatesFrom, Except.ok.injEq] at h
    exact h ▸ hinv
  | cons j js ih =>
    intro st st' h hinv
    simp only [expandStatesFrom] at h
    cases hp : expandStep st j with
    | error e => rw [hp] at h; simp at h
    | ok st1 =>
      rw [hp] at h
      exact ih h (expandGo_counter_total hp hinv)

/-!  Decode rejections: Fraction call texts and wrong-arity tuples. -/

theorem evalAtom_error {x : PyAtom} {e : PyErr} (h : evalAtom x = .error e) :
    e = .malformed := by
  cases x with
  | astr s => simp [evalAtom] at h
  | afloat q => simp [evalAtom] at h
  | aint n => simp [evalAtom] at h
  | afrac a b =>
    simp only [evalAtom, Except.error.injEq] at h
    exact h.symm

theorem evalAtom_frac {x : PyAtom} (h : x.isFrac = true) :
    evalAtom x = .error .malformed := by
  cases x <;> first | rfl | simp [PyAtom.isFrac] at h

theorem evalItem_error {i : PyItem} {e : PyErr} (h : evalItem i = .error e) :
    e = .malformed := by
  cases i with
  | atom x =>
    simp only [evalItem] at h
    cases hx : evalAtom x with
    | error e1 =>
      rw [hx] at h
      simp only [Except.error.injEq] at h
      rw [← h]
      exact evalAtom_error hx
    | ok v => rw [hx] at h; simp at h
  | pair x y =>
    simp only [evalItem] at h
    cases hx : evalAtom x with
    | error e1 =>
      rw [hx] at h
      simp only [Except.error.injEq] at h
      rw [← h]
      exact evalAtom_error hx
    | ok v =>
      rw [hx] at h
      cases hy : evalAtom y with
      | error e2 =>
        rw [hy] at h
        simp only [Except.error.injEq] at h
        rw [← h]
        exact evalAtom_error hy
      | ok w => rw [hy] at h; simp at h

theorem evalItem_frac {i : PyItem} (h : i.hasFrac = true) :
    evalItem i = .error .malformed := by
  cases i with
  | atom x =>
    simp only [PyItem.hasFrac] at h
    simp [evalItem, evalAtom_frac h]
  | pair x y =>
    simp only [PyItem.hasFrac, Bool.or_eq_true] at h
    rcases h with h | h
    · simp [evalItem, evalAtom_frac h]
    · cases hx : evalAtom x with
      | error e1 =>
        simp only [evalItem]
        rw [hx]
        rw [evalAtom_error hx]
      | ok v =>
        simp only [evalItem]
        rw [hx, evalAtom_frac h]

theorem evalItems_frac {items : List PyItem} (h : items.any PyItem.hasFrac = true) :
    evalItems items = .error .malformed := by
  induction items with
  | nil => simp at h
  | cons x xs ih =>
    simp only [List.any_cons, Bool.or_eq_true] at h
    rcases h with h | h
    · simp [evalItems, evalItem_frac h]
    · cases hx : evalItem x with
      | error e =>
        simp only [evalItems]
        rw [hx]
        rw [evalItem_error hx]
      | ok v =>
        simp only [evalItems]
        rw [hx, ih h]

theorem decodeState_frac {t : PyLit} (h : t.hasFrac = true) :
    decodeState t = .error .malformed := by
  cases t with
  | tuple items =>
    simp only [PyLit.hasFrac] at h
    simp [decodeState, literalEval, evalItems_frac h]

theorem decodeState_arity {items : List PyItem} {vs : List PyVal}
    (h : evalItems items = .ok vs) (hlen : vs.length ≠ 4) :
    decodeState (.tuple items) = .error .malformed := by
  simp only [decodeState, literalEval]
  rw [h]
  rcases vs with _ | ⟨a, _ | ⟨b, _ | ⟨c, _ | ⟨d, rest⟩⟩⟩⟩
  · rfl
  · rfl
  · rfl
  · rfl
  · cases rest with
    | nil => exact absurd rfl hlen
    | cons e tail => rfl

/-!  Chord elements are dropped by `notes_and_durations`. -/

theorem nd_append (xs ys : List MElem) :
    notes_and_durations (xs ++ ys)
      = notes_and_durations xs ++ notes_and_durations ys := by
  induction xs with
  | nil => rfl
  | cons e rest ih => cases e <;> simp [notes_and_durations, ih]

theorem elemsTotal_cons (e : MElem) (l : List MElem) :
    elemsTotal (e :: l) = e.dur.toRat + elemsTotal l := by
  simp [elemsTotal]

theorem nd_total_le (l : List MElem) (h : ∀ e ∈ l, 0 ≤ e.dur.toRat) :
    streamTotal (notes_and_durations l) ≤ elemsTotal l := by
  induction l with
  | nil => simp [notes_and_durations, streamTotal, elemsTotal]
  | cons e rest ih =>
    have hrest := ih (fun x hx => h x (List.mem_cons_of_mem _ hx))
    have hd := h e (List.mem_cons_self _ _)
    rw [elemsTotal_cons]
    cases e with
    | note nm d =>
      rw [show notes_and_durations (.note nm d :: rest)
            = ⟨nm, d⟩ :: notes_and_durations rest from rfl, streamTotal_cons]
      exact add_le_add_left hrest _
    | rest d =>
      rw [show notes_and_durations (.rest d :: rest)
            = ⟨"rest", d⟩ :: notes_and_durations rest from rfl, streamTotal_cons]
      exact add_le_add_left hrest _
    | chord nm d =>
      rw [show notes_and_durations (.chord nm d :: rest)
            = notes_and_durations rest from rfl]
      have : (0 : ℚ) ≤ (MElem.dur (.chord nm d)).toRat := hd
      linarith

theorem nd_total_lt (l : List MElem) (h0 : ∀ e ∈ l, 0 ≤ e.dur.toRat)
    (hc : ∃ e ∈ l, e.isChord = true ∧ 0 < e.dur.toRat) :
    streamTotal (notes_and_durations l) < elemsTotal l := by
  induction l with
  | nil => obtain ⟨e, he, _⟩ := hc; simp at he
  | cons e rest ih =>
    have h0rest : ∀ x ∈ rest, 0 ≤ (MElem.dur x).toRat :=
      fun x hx => h0 x (List.mem_cons_of_mem _ hx)
    have hd := h0 e (List.mem_cons_self _ _)
    rw [elemsTotal_cons]
    obtain ⟨e', he', hch, hpos⟩ := hc
    rcases List.mem_cons.mp he' with rfl | hmem
    · -- the positive chord is at the head: it is dropped
      cases e' with
      | note nm d => simp [MElem.isChord] at hch
      | rest d => simp [MElem.isChord] at hch
      | chord nm d =>
        rw [show notes_and_durations (.chord nm d :: rest)
              = notes_and_durations rest from rfl]
        have hle := nd_total_le rest h0rest
        have : (0 : ℚ) < (MElem.dur (.chord nm d)).toRat := hpos
        linarith
    · have hlt := ih h0rest ⟨e', hmem, hch, hpos⟩
      cases e with
      | note nm d =>
        rw [show notes_and_durations (.note nm d :: rest)
              = ⟨nm, d⟩ :: notes_and_durations rest from rfl, streamTotal_cons]
        have : (Event.mk nm d).dur.toRat = (MElem.note nm d).dur.toRat := rfl
        linarith [this]
      | rest d =>
        rw [show notes_and_durations (.rest d :: rest)
              = ⟨"rest", d⟩ :: notes_and_durations rest from rfl, streamTotal_cons]
        have : (Event.mk "rest" d).dur.toRat = (MElem.rest d).dur.toRat := rfl
        linarith [this]
      | chord nm d =>
        rw [show notes_and_durations (.chord nm d :: rest)
              = notes_and_durations rest from rfl]
        linarith

attribute [local semireducible] Rat.add Rat.sub Rat.mul

/-!  Claim theorems. -/

/-- Claim C1 (amended): every joint state actually emitted by `gen_states`
round-trips exactly through the codec: `literal_eval(str(state))` plus the
expander's per-voice unpacking reproduces the state, symbols and durations
exactly.  (All emitted durations are floats: `gen_states` raises TypeError on
a `Fraction` duration before it can yield; see the counterexample for the
non-dyadic case the original claim also asserted.) -/
theorem joint_codec_roundtrip_emitted {S A T B : List Event} {j : VQuad Event}
    (hj : j ∈ (gen_states S A T B).1) : decodeJoint (encState j) = .ok j := by
  have hj' : j ∈ (syncRun (initConf S A T B)).1.map Conf.cur := hj
  obtain ⟨conf, hconf, rfl⟩ := List.mem_map.mp hj'
  have hc0 : CurFloat (initConf S A T B) := by intro v; cases v <;> rfl
  have hconf' : conf ∈ (syncGo (totalLen (initConf S A T B).streams)
      (initConf S A T B)).1 := hconf
  exact decode_encode_of_float (syncGo_trace_curFloat _ _ hc0 conf hconf')

/-- Witness for C1: a concrete emitted joint state round-trips. -/
theorem joint_codec_roundtrip_emitted_witness :
    (⟨⟨"C5", .pfloat 1⟩, ⟨"E4", .pfloat 1⟩, ⟨"G3", .pfloat 1⟩, ⟨"C2", .pfloat 1⟩⟩ : VQuad Event)
      ∈ (gen_states [⟨"C5", .pfloat 1⟩] [⟨"E4", .pfloat 1⟩]
          [⟨"G3", .pfloat 1⟩] [⟨"C2", .pfloat 1⟩]).1 ∧
    decodeJoint (encState ⟨⟨"C5", .pfloat 1⟩, ⟨"E4", .pfloat 1⟩,
        ⟨"G3", .pfloat 1⟩, ⟨"C2", .pfloat 1⟩⟩)
      = .ok ⟨⟨"C5", .pfloat 1⟩, ⟨"E4", .pfloat 1⟩, ⟨"G3", .pfloat 1⟩, ⟨"C2", .pfloat 1⟩⟩ :=
  ⟨by decide,
   joint_codec_roundtrip_emitted
     (show (⟨⟨"C5", .pfloat 1⟩, ⟨"E4", .pfloat 1⟩, ⟨"G3", .pfloat 1⟩,
          ⟨"C2", .pfloat 1⟩⟩ : VQuad Event)
        ∈ (gen_states [⟨"C5", .pfloat 1⟩] [⟨"E4", .pfloat 1⟩]
            [⟨"G3", .pfloat 1⟩] [⟨"C2", .pfloat 1⟩]).1 by decide)⟩

/-- Counterexample for C1 as stated: the triplet duration 1/3 (a valid Event
duration per the data model) neither survives the synchronizer — `gen_states`
raises TypeError from `Decimal(Fraction(1, 3))` before yielding anything — nor
round-trips through the codec: its token carries the call text
`Fraction(1, 3)`, which `literal_eval` rejects, so decoding errors instead of
returning the state. -/
theorem joint_codec_triplet_counterexample :
    gen_states [⟨"C4", .pfrac (mkRat 1 3)⟩] [⟨"C4", .pfrac (mkRat 1 3)⟩]
        [⟨"C4", .pfrac (mkRat 1 3)⟩] [⟨"C4", .pfrac (mkRat 1 3)⟩] = ([], .typeError) ∧
    decodeJoint (encState ⟨⟨"C4", .pfrac (mkRat 1 3)⟩, ⟨"C4", .pfrac (mkRat 1 3)⟩,
        ⟨"C4", .pfrac (mkRat 1 3)⟩, ⟨"C4", .pfrac (mkRat 1 3)⟩⟩) = .error .malformed ∧
    decodeJoint (encState ⟨⟨"C4", .pfrac (mkRat 1 3)⟩, ⟨"C4", .pfrac (mkRat 1 3)⟩,
        ⟨"C4", .pfrac (mkRat 1 3)⟩, ⟨"C4", .pfrac (mkRat 1 3)⟩⟩)
      ≠ .ok ⟨⟨"C4", .pfrac (mkRat 1 3)⟩, ⟨"C4", .pfrac (mkRat 1 3)⟩,
          ⟨"C4", .pfrac (mkRat 1 3)⟩, ⟨"C4", .pfrac (mkRat 1 3)⟩⟩ := by
  refine ⟨?_, ?_, ?_⟩ <;> decide

/-- Claim C2 (amended): for four voice streams of equal total duration whose
durations are positive floats, the run ends by stream exhaustion and replaying
the emitted joint states through the expander loop reconstructs the four input
streams event-for-event. -/
theorem expander_inverts_synchronizer_on_floats (S A T B : List Event)
    (hA : streamTotal A = streamTotal S) (hT : streamTotal T = streamTotal S)
    (hB : streamTotal B = streamTotal S)
    (hfS : FloatList S) (hfA : FloatList A) (hfT : FloatList T) (hfB : FloatList B)
    (hpS : PosList S) (hpA : PosList A) (hpT : PosList T) (hpB : PosList B) :
    (gen_states S A T B).2 = .exhausted ∧
    expandStates (gen_states S A T B).1 = .ok ⟨S, A, T, B⟩ := by
  obtain ⟨hex, hfull⟩ := syncRun_full hA hT hB hfS hfA hfT hfB hpS hpA hpT hpB
  obtain ⟨fin, hexp, hfc, hfp⟩ := syncGo_replay (totalLen (initConf S A T B).streams)
      (initConf S A T B) expInit rfl le_rfl
  refine ⟨hex, ?_⟩
  have hexp' : expandStatesFrom expInit ((syncRun (initConf S A T B)).1.map Conf.cur)
      = .ok fin := hexp
  show expandStates ((syncRun (initConf S A T B)).1.map Conf.cur) = .ok ⟨S, A, T, B⟩
  unfold expandStates
  rw [hexp']
  show Except.ok fin.parts = .ok (⟨S, A, T, B⟩ : VQuad (List Event))
  have hparts : fin.parts = ⟨S, A, T, B⟩ := by
    apply VQuad.ext_get
    intro v
    have h1 : fin.parts.get v ++ (syncRun (initConf S A T B)).2.2.streams.get v
        = expInit.parts.get v ++ (initConf S A T B).streams.get v := hfp v
    rw [(hfull v).1, List.append_nil] at h1
    rw [h1]
    cases v <;> rfl
  rw [hparts]

/-- Witness for C2: a concrete equal-total float corpus piece is inverted. -/
theorem expander_inverts_synchronizer_on_floats_witness :
    streamTotal [⟨"F4", .pfloat 1⟩] = streamTotal [⟨"A4", .pfloat (mkRat 1 2)⟩, ⟨"B4", .pfloat (mkRat 1 2)⟩] ∧
    ((gen_states [⟨"A4", .pfloat (mkRat 1 2)⟩, ⟨"B4", .pfloat (mkRat 1 2)⟩] [⟨"F4", .pfloat 1⟩]
        [⟨"D3", .pfloat 1⟩] [⟨"G2", .pfloat 1⟩]).2 = .exhausted ∧
      expandStates (gen_states [⟨"A4", .pfloat (mkRat 1 2)⟩, ⟨"B4", .pfloat (mkRat 1 2)⟩]
          [⟨"F4", .pfloat 1⟩] [⟨"D3", .pfloat 1⟩] [⟨"G2", .pfloat 1⟩]).1
        = .ok ⟨[⟨"A4", .pfloat (mkRat 1 2)⟩, ⟨"B4", .pfloat (mkRat 1 2)⟩], [⟨"F4", .pfloat 1⟩],
               [⟨"D3", .pfloat 1⟩], [⟨"G2", .pfloat 1⟩]⟩) :=
  ⟨by decide,
   expander_inverts_synchronizer_on_floats _ _ _ _ (by decide) (by decide) (by decide)
     (by decide) (by decide) (by decide) (by decide)
     (by decide) (by decide) (by decide) (by decide)⟩

/-- Counterexample for C2 as stated: four equal-total streams made of one
triplet event each.  The synchronizer raises TypeError before emitting any
state, so the expander reconstructs four empty timelines, not the inputs. -/
theorem expander_inverts_synchronizer_counterexample :
    gen_states [⟨"D4", .pfrac (mkRat 1 3)⟩] [⟨"D4", .pfrac (mkRat 1 3)⟩]
        [⟨"D4", .pfrac (mkRat 1 3)⟩] [⟨"D4", .pfrac (mkRat 1 3)⟩] = ([], .typeError) ∧
    expandStates (gen_states [⟨"D4", .pfrac (mkRat 1 3)⟩] [⟨"D4", .pfrac (mkRat 1 3)⟩]
        [⟨"D4", .pfrac (mkRat 1 3)⟩] [⟨"D4", .pfrac (mkRat 1 3)⟩]).1
      = .ok ⟨[], [], [], []⟩ ∧
    (⟨[], [], [], []⟩ : VQuad (List Event))
      ≠ ⟨[⟨"D4", .pfrac (mkRat 1 3)⟩], [⟨"D4", .pfrac (mkRat 1 3)⟩],
          [⟨"D4", .pfrac (mkRat 1 3)⟩], [⟨"D4", .pfrac (mkRat 1 3)⟩]⟩ := by
  refine ⟨?_, ?_, ?_⟩ <;> decide

/-- Counterexample for C3 as stated: a piece whose Soprano and Tenor/Bass
total 4 beats while Alto totals 3.  The run ends by the Alto stream's
StopIteration after two joint states; `make_model` has no try/except, so the
piece is neither dropped nor reported — its truncated two-token sequence is
kept in the training list and training continues. -/
theorem exhaustion_truncation_counterexample :
    trainingStates [⟨[⟨"C4", .pfloat 2⟩, ⟨"D4", .pfloat 2⟩], [⟨"E4", .pfloat 3⟩],
        [⟨"G3", .pfloat 4⟩], [⟨"C3", .pfloat 4⟩]⟩]
      = [[encState ⟨⟨"C4", .pfloat 2⟩, ⟨"E4", .pfloat 3⟩, ⟨"G3", .pfloat 4⟩, ⟨"C3", .pfloat 4⟩⟩,
          encState ⟨⟨"D4", .pfloat 2⟩, ⟨"E4", .pfloat 3⟩, ⟨"G3", .pfloat 4⟩, ⟨"C3", .pfloat 4⟩⟩]] ∧
    (trainingStates [⟨[⟨"C4", .pfloat 2⟩, ⟨"D4", .pfloat 2⟩], [⟨"E4", .pfloat 3⟩],
        [⟨"G3", .pfloat 4⟩], [⟨"C3", .pfloat 4⟩]⟩]).length = 1 := by
  refine ⟨?_, ?_⟩ <;> decide

/-- Claim C3 (amended): exhaustion is a silent truncation, not a recovered
error: `make_model` keeps one training example per filtered piece — truncated
or not — and never drops a piece. -/
theorem make_model_keeps_every_piece (pieces : List Piece) :
    (trainingStates pieces).length = pieces.length := by
  simp [trainingStates]

/-- Claim C4 (amended): for equal-total, positive, float-duration streams the
full pass consumes each voice exactly down to the common total — every final
counter equals the piece's total duration — and after every emitted joint
state each voice's counter is at least the minimum counter. -/
theorem synchronizer_invariant_on_floats (S A T B : List Event)
    (hA : streamTotal A = streamTotal S) (hT : streamTotal T = streamTotal S)
    (hB : streamTotal B = streamTotal S)
    (hfS : FloatList S) (hfA : FloatList A) (hfT : FloatList T) (hfB : FloatList B)
    (hpS : PosList S) (hpA : PosList A) (hpT : PosList T) (hpB : PosList B) :
    (∀ v, (syncRun (initConf S A T B)).2.2.counter.get v = streamTotal S) ∧
    (∀ conf ∈ (syncRun (initConf S A T B)).1, ∀ v,
      minCounter conf.counter ≤ conf.counter.get v) := by
  obtain ⟨_, hfull⟩ := syncRun_full hA hT hB hfS hfA hfT hfB hpS hpA hpT hpB
  exact ⟨fun v => (hfull v).2, fun conf _ v => minCounter_le conf.counter v⟩

/-- Witness for C4 at a concrete piece. -/
theorem synchronizer_invariant_on_floats_witness :
    streamTotal [⟨"E4", .pfloat 1⟩, ⟨"F4", .pfloat 1⟩] = streamTotal [⟨"C4", .pfloat 2⟩] ∧
    (syncRun (initConf [⟨"C4", .pfloat 2⟩] [⟨"E4", .pfloat 1⟩, ⟨"F4", .pfloat 1⟩]
        [⟨"G3", .pfloat 2⟩] [⟨"C3", .pfloat 2⟩])).2.2.counter.get .alto
      = streamTotal [⟨"C4", .pfloat 2⟩] :=
  ⟨by decide,
   (synchronizer_invariant_on_floats _ _ _ _ (by decide) (by decide) (by decide)
       (by decide) (by decide) (by decide) (by decide)
       (by decide) (by decide) (by decide) (by decide)).1 .alto⟩

/-- Counterexample for C4 as stated: four equal-total streams consisting of
one sixth-note triplet event each.  The synchronizer raises TypeError before
emitting any state, so the sum of durations emitted per voice (the final
counter) is 0, not the piece's total duration 1/6. -/
theorem synchronizer_invariant_counterexample :
    (syncRun (initConf [⟨"B3", .pfrac (mkRat 1 6)⟩] [⟨"B3", .pfrac (mkRat 1 6)⟩]
        [⟨"B3", .pfrac (mkRat 1 6)⟩] [⟨"B3", .pfrac (mkRat 1 6)⟩])).1 = [] ∧
    (syncRun (initConf [⟨"B3", .pfrac (mkRat 1 6)⟩] [⟨"B3", .pfrac (mkRat 1 6)⟩]
        [⟨"B3", .pfrac (mkRat 1 6)⟩] [⟨"B3", .pfrac (mkRat 1 6)⟩])).2.1 = .typeError ∧
    (syncRun (initConf [⟨"B3", .pfrac (mkRat 1 6)⟩] [⟨"B3", .pfrac (mkRat 1 6)⟩]
        [⟨"B3", .pfrac (mkRat 1 6)⟩] [⟨"B3", .pfrac (mkRat 1 6)⟩])).2.2.counter.get .soprano = 0 ∧
    streamTotal [⟨"B3", .pfrac (mkRat 1 6)⟩] = mkRat 1 6 ∧
    ¬ (0 : ℚ) = mkRat 1 6 := by
  refine ⟨?_, ?_, ?_, ?_, ?_⟩ <;> decide

/-- Claim C5 (confirmed): the spec's example scenario.  With
Soprano = [(C4,1),(D4,1)], Alto = [(E4,2)], Tenor = [(G3,2)], Bass = [(C3,2)]
the synchronizer emits exactly two joint states — the first with all four
freshly pulled events and counters (1,2,2,2), the second advancing only
Soprano with counters (2,2,2,2) — and the expander applied to those two
states reproduces the four input lists exactly. -/
theorem example_scenario_two_states :
    gen_states [⟨"C4", .pfloat 1⟩, ⟨"D4", .pfloat 1⟩] [⟨"E4", .pfloat 2⟩]
        [⟨"G3", .pfloat 2⟩] [⟨"C3", .pfloat 2⟩]
      = ([⟨⟨"C4", .pfloat 1⟩, ⟨"E4", .pfloat 2⟩, ⟨"G3", .pfloat 2⟩, ⟨"C3", .pfloat 2⟩⟩,
          ⟨⟨"D4", .pfloat 1⟩, ⟨"E4", .pfloat 2⟩, ⟨"G3", .pfloat 2⟩, ⟨"C3", .pfloat 2⟩⟩],
         .exhausted) ∧
    (syncRun (initConf [⟨"C4", .pfloat 1⟩, ⟨"D4", .pfloat 1⟩] [⟨"E4", .pfloat 2⟩]
        [⟨"G3", .pfloat 2⟩] [⟨"C3", .pfloat 2⟩])).1.map (fun conf => conf.counter)
      = [⟨1, 2, 2, 2⟩, ⟨2, 2, 2, 2⟩] ∧
    expandStates [⟨⟨"C4", .pfloat 1⟩, ⟨"E4", .pfloat 2⟩, ⟨"G3", .pfloat 2⟩, ⟨"C3", .pfloat 2⟩⟩,
        ⟨⟨"D4", .pfloat 1⟩, ⟨"E4", .pfloat 2⟩, ⟨"G3", .pfloat 2⟩, ⟨"C3", .pfloat 2⟩⟩]
      = .ok ⟨[⟨"C4", .pfloat 1⟩, ⟨"D4", .pfloat 1⟩], [⟨"E4", .pfloat 2⟩],
             [⟨"G3", .pfloat 2⟩], [⟨"C3", .pfloat 2⟩]⟩ := by
  refine ⟨?_, ?_, ?_⟩ <;> decide

/-- Claim C6 (confirmed): at each incoming joint state the expander appends
an event exactly to the voices whose counter equals the current minimum;
every other voice's timeline and counter are left unchanged, even though the
state carries a (held-over) event value for it. -/
theorem expander_skips_ahead_voices {st : ExpSt} {j : VQuad Event} {st' : ExpSt}
    (h : expandStep st j = .ok st') :
    (∀ v ∈ minVoices st.counter, st'.parts.get v = st.parts.get v ++ [j.get v]) ∧
    (∀ v, v ∉ minVoices st.counter →
      st'.parts.get v = st.parts.get v ∧ st'.counter.get v = st.counter.get v) :=
  expandGo_char (minVoices_nodup st.counter) h

/-- Witness for C6: with counters (0,5,5,5) only Soprano is behind; Alto's
timeline and counter are untouched by the step. -/
theorem expander_skips_ahead_voices_witness :
    expandStep ⟨⟨0, 5, 5, 5⟩, ⟨[], [⟨"X4", .pfloat 1⟩], [], []⟩⟩
        ⟨⟨"C4", .pfloat 2⟩, ⟨"E4", .pfloat 2⟩, ⟨"G3", .pfloat 2⟩, ⟨"C3", .pfloat 2⟩⟩
      = .ok ⟨⟨2, 5, 5, 5⟩, ⟨[⟨"C4", .pfloat 2⟩], [⟨"X4", .pfloat 1⟩], [], []⟩⟩ ∧
    Voice.alto ∉ minVoices (⟨0, 5, 5, 5⟩ : VQuad ℚ) ∧
    (⟨⟨2, 5, 5, 5⟩, ⟨[⟨"C4", .pfloat 2⟩], [⟨"X4", .pfloat 1⟩], [], []⟩⟩ : ExpSt).parts.get .alto
        = (⟨⟨0, 5, 5, 5⟩, ⟨[], [⟨"X4", .pfloat 1⟩], [], []⟩⟩ : ExpSt).parts.get .alto ∧
    (⟨⟨2, 5, 5, 5⟩, ⟨[⟨"C4", .pfloat 2⟩], [⟨"X4", .pfloat 1⟩], [], []⟩⟩ : ExpSt).counter.get .alto
        = (⟨⟨0, 5, 5, 5⟩, ⟨[], [⟨"X4", .pfloat 1⟩], [], []⟩⟩ : ExpSt).counter.get .alto := by
  have h : expandStep ⟨⟨0, 5, 5, 5⟩, ⟨[], [⟨"X4", .pfloat 1⟩], [], []⟩⟩
      ⟨⟨"C4", .pfloat 2⟩, ⟨"E4", .pfloat 2⟩, ⟨"G3", .pfloat 2⟩, ⟨"C3", .pfloat 2⟩⟩
    = .ok ⟨⟨2, 5, 5, 5⟩, ⟨[⟨"C4", .pfloat 2⟩], [⟨"X4", .pfloat 1⟩], [], []⟩⟩ := by decide
  refine ⟨h, by decide, ?_, ?_⟩
  · exact ((expander_skips_ahead_voices h).2 .alto (by decide)).1
  · exact ((expander_skips_ahead_voices h).2 .alto (by decide)).2

/-- Counterexample for C7 as stated: the token `(1, 2, 3, 4)` is malformed —
it is not the encoding of any joint state — yet the decode step accepts it
without error, assigning the four integers to the four voices; the failure
would surface only later, when the expander unpacks an entry. -/
theorem decode_accepts_malformed_counterexample :
    IsMalformedToken (.tuple [.atom (.aint 1), .atom (.aint 2), .atom (.aint 3), .atom (.aint 4)]) ∧
    decodeState (.tuple [.atom (.aint 1), .atom (.aint 2), .atom (.aint 3), .atom (.aint 4)])
      = .ok (.vatom (.vint 1), .vatom (.vint 2), .vatom (.vint 3), .vatom (.vint 4)) := by
  constructor
  · intro j h
    cases j
    simp [encState, encEvent] at h
  · decide

/-- Claim C7 (amended): the decode step does reject every token containing a
`Fraction(a, b)` call text (ValueError from `literal_eval`) and every literal
that does not unpack into exactly four components (ValueError from the
4-tuple unpacking); but it does not validate component shapes, so malformed
literal 4-tuples are accepted (see the counterexample). -/
theorem decode_rejects_fraction_and_arity :
    (∀ t : PyLit, t.hasFrac = true → decodeState t = .error .malformed) ∧
    (∀ (items : List PyItem) (vs : List PyVal), evalItems items = .ok vs →
      vs.length ≠ 4 → decodeState (.tuple items) = .error .malformed) :=
  ⟨fun _ ht => decodeState_frac ht, fun _ _ h hlen => decodeState_arity h hlen⟩

/-- Witness for C7: a Fraction-bearing token and a 1-tuple token are both
rejected. -/
theorem decode_rejects_fraction_and_arity_witness :
    decodeState (.tuple [.pair (.astr "C4") (.afrac 1 3), .atom (.aint 0)])
      = .error .malformed ∧
    decodeState (.tuple [.atom (.aint 7)]) = .error .malformed :=
  ⟨decode_rejects_fraction_and_arity.1 _ (by decide),
   decode_rejects_fraction_and_arity.2 [.atom (.aint 7)] [.vatom (.vint 7)]
     (by decide) (by decide)⟩

/-- Claim C8 (amended): duration bookkeeping is exact for float durations:
an expander state reached from the initial state has every counter equal to
the exact rational sum of the durations appended to that voice's timeline,
and in any synchronizer run each final counter plus the total of the voice's
unconsumed stream equals the voice's full stream total — the counter is the
exact rational sum of the consumed durations, with no drift. -/
theorem duration_counters_exact_sum :
    (∀ (js : List (VQuad Event)) (fin : ExpSt), expandStatesFrom expInit js = .ok fin →
      ∀ v, fin.counter.get v = streamTotal (fin.parts.get v)) ∧
    (∀ (S A T B : List Event) (w : Voice),
      (syncRun (initConf S A T B)).2.2.counter.get w
        + streamTotal ((syncRun (initConf S A T B)).2.2.streams.get w)
        = streamTotal ((initConf S A T B).streams.get w)) := by
  constructor
  · intro js fin h v
    refine expandStatesFrom_counter_total h ?_ v
    intro w
    cases w <;> rfl
  · intro S A T B w
    have h1 : (syncRun (initConf S A T B)).2.2.counter.get w
        + streamTotal ((syncRun (initConf S A T B)).2.2.streams.get w)
        = (initConf S A T B).counter.get w
          + streamTotal ((initConf S A T B).streams.get w) :=
      syncGo_conserve (totalLen (initConf S A T B).streams) (initConf S A T B) w
    have h2 : (initConf S A T B).counter.get w = 0 := by cases w <;> rfl
    rw [h1, h2, zero_add]

/-- Witness for C8 at concrete states. -/
theorem duration_counters_exact_sum_witness :
    expandStatesFrom expInit [⟨⟨"C4", .pfloat 1⟩, ⟨"E4", .pfloat 1⟩,
        ⟨"G3", .pfloat 1⟩, ⟨"C3", .pfloat 1⟩⟩]
      = .ok ⟨⟨1, 1, 1, 1⟩, ⟨[⟨"C4", .pfloat 1⟩], [⟨"E4", .pfloat 1⟩],
          [⟨"G3", .pfloat 1⟩], [⟨"C3", .pfloat 1⟩]⟩⟩ ∧
    (⟨⟨1, 1, 1, 1⟩, ⟨[⟨"C4", .pfloat 1⟩], [⟨"E4", .pfloat 1⟩], [⟨"G3", .pfloat 1⟩],
        [⟨"C3", .pfloat 1⟩]⟩⟩ : ExpSt).counter.get .soprano
      = streamTotal ((⟨⟨1, 1, 1, 1⟩, ⟨[⟨"C4", .pfloat 1⟩], [⟨"E4", .pfloat 1⟩],
          [⟨"G3", .pfloat 1⟩], [⟨"C3", .pfloat 1⟩]⟩⟩ : ExpSt).parts.get .soprano) ∧
    (syncRun (initConf [⟨"F4", .pfloat 4⟩] [⟨"A3", .pfloat 4⟩] [⟨"D3", .pfloat 4⟩]
        [⟨"F2", .pfloat 4⟩])).2.2.counter.get .soprano
      + streamTotal ((syncRun (initConf [⟨"F4", .pfloat 4⟩] [⟨"A3", .pfloat 4⟩]
          [⟨"D3", .pfloat 4⟩] [⟨"F2", .pfloat 4⟩])).2.2.streams.get .soprano)
      = streamTotal ((initConf [⟨"F4", .pfloat 4⟩] [⟨"A3", .pfloat 4⟩] [⟨"D3", .pfloat 4⟩]
          [⟨"F2", .pfloat 4⟩]).streams.get .soprano) :=
  ⟨by decide,
   duration_counters_exact_sum.1 [⟨⟨"C4", .pfloat 1⟩, ⟨"E4", .pfloat 1⟩,
       ⟨"G3", .pfloat 1⟩, ⟨"C3", .pfloat 1⟩⟩] _ (by decide) .soprano,
   duration_counters_exact_sum.2 _ _ _ _ .soprano⟩

/-- Counterexample for C8 as stated: a joint state carrying the duration 5/3
(a positive rational) cannot be processed by the expander at all — its
`Decimal(d)` counter update raises TypeError — so counters are not maintained
for every positive rational duration. -/
theorem duration_fraction_counterexample :
    expandStatesFrom expInit [⟨⟨"A3", .pfrac (mkRat 5 3)⟩, ⟨"A3", .pfrac (mkRat 5 3)⟩,
        ⟨"A3", .pfrac (mkRat 5 3)⟩, ⟨"A3", .pfrac (mkRat 5 3)⟩⟩] = .error .typeError := by
  decide

/-- Counterexample for C9 as stated: with an empty filtered corpus,
`make_model` raises nothing and persists a model built from zero training
examples — there is no emptiness check or diagnostic in the code. -/
theorem empty_corpus_counterexample : make_model [] = ⟨[]⟩ := rfl

/-- Claim C9 (amended): `make_model` persists an empty model exactly when the
filtered corpus is empty, silently in either case. -/
theorem empty_model_iff_empty_corpus (pieces : List Piece) :
    (make_model pieces).examples = [] ↔ pieces = [] := by
  simp [make_model, trainingStates]

/-- Claim C10 (confirmed): `notes_and_durations` yields nothing for a chord
element — the `except` branch computes the first chord note's name but the
`else`-guarded `yield` is skipped — so chords are silently dropped, and a
voice containing a chord of positive duration produces a stream whose total
duration is strictly less than the part's notated duration. -/
theorem chords_silently_dropped :
    (∀ (pre post : List MElem) (nm : String) (d : PyNum),
      notes_and_durations (pre ++ .chord nm d :: post)
        = notes_and_durations (pre ++ post)) ∧
    (∀ l : List MElem, (∀ e ∈ l, 0 ≤ e.dur.toRat) →
      (∃ e ∈ l, e.isChord = true ∧ 0 < e.dur.toRat) →
      streamTotal (notes_and_durations l) < elemsTotal l) := by
  constructor
  · intro pre post nm d
    rw [nd_append, nd_append]
    rfl
  · exact nd_total_lt

/-- Witness for C10: a voice with one chord among a note and a rest. -/
theorem chords_silently_dropped_witness :
    notes_and_durations [.note "C4" (.pfloat 1), .chord "E4" (.pfloat 1), .rest (.pfloat 1)]
      = notes_and_durations [.note "C4" (.pfloat 1), .rest (.pfloat 1)] ∧
    streamTotal (notes_and_durations [.note "C4" (.pfloat 1), .chord "E4" (.pfloat 1),
        .rest (.pfloat 1)])
      < elemsTotal [.note "C4" (.pfloat 1), .chord "E4" (.pfloat 1), .rest (.pfloat 1)] :=
  ⟨chords_silently_dropped.1 [.note "C4" (.pfloat 1)] [.rest (.pfloat 1)] "E4" (.pfloat 1),
   chords_silently_dropped.2 _ (by decide)
     ⟨.chord "E4" (.pfloat 1), by decide⟩⟩
